import Mathlib

/-!
Verification of the RPGAgentArena core algorithms: a shallow embedding of
the prompt-evolution controller (src/ape/controller.py), the agent policy
memory (src/core/memory.py), the credential pool (src/core/key_manager.py),
the resilient call layer (src/core/llm_client.py) and the text-embedding
utilities (src/core/platform_utils.py), together with theorems settling the
specification claims about them.  Python floats are modelled as exact
rationals; `math.sqrt`/`math.log` force the UCB scores and the embedding
normalisation into the reals.
-/

namespace RPG

/-! ### Generic first-maximum fold

Python's `max(xs, key=f)` walks the list keeping the current best and
replaces it only on a strictly larger key, so it returns the first
element attaining the maximal key. -/

def foldMax {α β : Type} [LinearOrder β] (f : α → β) (a : α) : List α → α
  | [] => a
  | x :: l => foldMax f (if f a < f x then x else a) l

/-! ### PromptCandidate (src/ape/controller.py, lines 20-43) -/

structure PromptCandidate where
  prompt_id : String
  agent_id : String
  text : String
  wins : ℕ
  losses : ℕ
  avg_dmg : ℚ
  avg_rounds : ℚ
  generation : ℕ
  created_at : ℚ
deriving DecidableEq

/-- `PromptCandidate.win_rate`: `wins / (wins + losses)`, or `0.5` when the
candidate has never been evaluated. -/
def win_rate (c : PromptCandidate) : ℚ :=
  if 0 < c.wins + c.losses then (c.wins : ℚ) / ((c.wins : ℚ) + (c.losses : ℚ)) else 1/2

/-- `PromptCandidate.ucb_score`: `+inf` (here `⊤`) on zero evaluations,
otherwise win rate plus the UCB1 exploration bonus plus a damage bonus. -/
noncomputable def ucb_score (c : PromptCandidate) (total_evals : ℕ) : WithTop ℝ :=
  if c.wins + c.losses = 0 then ⊤
  else
    (((win_rate c : ℝ)
      + Real.sqrt (2 * Real.log (max 1 (total_evals : ℝ)) / ((c.wins + c.losses : ℕ) : ℝ))
      + ((min (15/100) (c.avg_dmg / 600) : ℚ) : ℝ) : ℝ) : WithTop ℝ)

/-- Total evaluations of a pool: `sum(c.wins + c.losses for c in candidates)`. -/
def totalEvals (candidates : List PromptCandidate) : ℕ :=
  (candidates.map (fun c => c.wins + c.losses)).sum

/-- `_select_ucb1` (src/ape/controller.py, lines 131-135): raises on an empty
pool, otherwise returns the first candidate of maximal UCB score. -/
noncomputable def select_ucb1 (candidates : List PromptCandidate) :
    Except String PromptCandidate :=
  match candidates with
  | [] => .error "No prompt candidates available"
  | c :: rest => .ok (foldMax (fun x => ucb_score x (totalEvals (c :: rest))) c rest)

/-! ### Variant parsing (src/ape/controller.py, lines 169-179)

`re.findall(r"<VARIANT>(.*?)</VARIANT>", resp, re.DOTALL)` scans left to
right: each match starts at the first occurrence of the opening tag and
captures lazily up to the first closing tag after it; scanning resumes
after the closing tag. -/

/-- Split `s` around the first occurrence of `tag`, returning the part
before it and the part after it. -/
def splitTag? (tag : List Char) : List Char → Option (List Char × List Char)
  | [] => if tag = [] then some ([], []) else none
  | c :: rest =>
    if tag.isPrefixOf (c :: rest) then some ([], (c :: rest).drop tag.length)
    else
      match splitTag? tag rest with
      | some (pre, post) => some (c :: pre, post)
      | none => none

def openTag : List Char := "<VARIANT>".toList

def closeTag : List Char := "</VARIANT>".toList

/-- All lazily captured variant bodies, in scan order. `fuel` bounds the
recursion; `s.length` always suffices. -/
def findVariants (fuel : ℕ) (s : List Char) : List (List Char) :=
  match fuel with
  | 0 => []
  | fuel + 1 =>
    match splitTag? openTag s with
    | none => []
    | some (_, afterOpen) =>
      match splitTag? closeTag afterOpen with
      | none => []
      | some (body, rest) => body :: findVariants fuel rest

/-- Python `str.isspace` characters relevant to `str.strip()` (ASCII range). -/
def isPySpace (c : Char) : Bool :=
  c = ' ' || c = '\t' || c = '\n' || c = '\r' || c = Char.ofNat 11 || c = Char.ofNat 12

/-- Python `str.strip()`. -/
def pyStrip (s : List Char) : List Char :=
  ((s.dropWhile isPySpace).reverse.dropWhile isPySpace).reverse

/-- The list-comprehension filter of `_generate_variants`:
`[p.strip() for p in parts if len(p.strip()) > 80][:n]`. -/
def parse_variants (resp : String) (n : ℕ) : List String :=
  ((((findVariants resp.toList.length resp.toList).map pyStrip).filter
      (fun p => 80 < p.length)).take n).map (fun l => String.mk l)

/-! ### Evolution (src/ape/controller.py, lines 242-267): seed selection and
appending freshly generated candidates at `generation = max + 1`. -/

/-- `max(c.generation for c in candidates)` over the non-empty pool `c :: rest`. -/
def maxGen (c : PromptCandidate) (rest : List PromptCandidate) : ℕ :=
  rest.foldl (fun m x => max m x.generation) c.generation

/-- The candidate built for variant `i` of text `txt` inside `_evolve`. -/
def mkVariantCand (agentId : String) (t i g : ℕ) (now : ℚ) (txt : String) :
    PromptCandidate :=
  { prompt_id := "ape_" ++ agentId ++ "_" ++ toString t ++ "_" ++ toString i
    agent_id := agentId
    text := txt
    wins := 0
    losses := 0
    avg_dmg := 0
    avg_rounds := 0
    generation := g
    created_at := now }

/-- The `for i, vtext in enumerate(variants)` loop of `_evolve`. -/
def newCandidates (agentId : String) (t : ℕ) (now : ℚ) (g : ℕ) :
    ℕ → List String → List PromptCandidate
  | _, [] => []
  | i, v :: vs => mkVariantCand agentId t i g now v :: newCandidates agentId t now g (i + 1) vs

/-- `_evolve` up to and including the append loop (lines 242-267): an empty
pool returns immediately; otherwise each variant text becomes a candidate at
`generation = current_gen + 1` with zero evaluations, appended to the pool. -/
def evolve_pool (pool : List PromptCandidate) (agentId : String) (t : ℕ) (now : ℚ)
    (vtexts : List String) : List PromptCandidate :=
  match pool with
  | [] => []
  | c :: rest => (c :: rest) ++ newCandidates agentId t now (maxGen c rest + 1) 0 vtexts

/-- The evolution seed: `max(self._candidates, key=lambda c: c.win_rate())`
over a non-empty pool. -/
def evolve_seed (c : PromptCandidate) (rest : List PromptCandidate) : PromptCandidate :=
  foldMax win_rate c rest

/-! ### AgentMemory (src/core/memory.py, lines 85-135)

Python dicts are modelled as association lists in insertion order; `dict.get`
is first-match lookup. -/

structure UcbStat where
  total : ℚ
  plays : ℕ
deriving DecidableEq

structure AgentMemory where
  agent_id : String
  name : String
  char_class : String
  level : ℕ
  wins : ℕ
  losses : ℕ
  dmg_dealt : ℕ
  dmg_taken : ℕ
  pref_actions : List (String × ℚ)
  opp_models : List (String × List (String × ℤ))
  ucb_stats : List (String × UcbStat)

/-- `self.ucb_stats.get(action, default)` on the association-list model. -/
def lookupStat (a : String) : List (String × UcbStat) → Option UcbStat
  | [] => none
  | (k, v) :: rest => if k = a then some v else lookupStat a rest

/-- `sum(v["plays"] for v in self.ucb_stats.values())`. -/
def totalPlays (stats : List (String × UcbStat)) : ℕ :=
  (stats.map (fun p => p.2.plays)).sum

/-- The candidate loop of `ucb_best_action`: returns the first action with
zero recorded plays immediately, otherwise tracks the best UCB1 score seen so
far (strict improvement keeps the earlier action on ties). -/
noncomputable def ucbLoop (stats : List (String × UcbStat)) (tp : ℕ) :
    List String → ℝ → Option String → Option String
  | [], _, best => best
  | a :: rest, bestScore, best =>
    let s := (lookupStat a stats).getD ⟨0, 0⟩
    if s.plays = 0 then some a
    else
      let score : ℝ := (s.total : ℝ) / (s.plays : ℝ)
        + Real.sqrt (2 * Real.log (max 1 (tp : ℝ)) / (s.plays : ℝ))
      if bestScore < score then ucbLoop stats tp rest score (some a)
      else ucbLoop stats tp rest bestScore best

/-- `AgentMemory.ucb_best_action` (src/core/memory.py, lines 119-135). -/
noncomputable def ucb_best_action (m : AgentMemory) (candidates : List String) :
    Option String :=
  if m.ucb_stats = [] then none
  else ucbLoop m.ucb_stats (totalPlays m.ucb_stats) candidates (-1) none

/-- The first candidate action absent from the bandit stats, in iteration
order (the claim's "unseen action"). -/
def firstUnseen (stats : List (String × UcbStat)) : List String → Option String
  | [] => none
  | a :: rest => if lookupStat a stats = none then some a else firstUnseen stats rest

/-- `AgentMemory.update_ucb` (src/core/memory.py, lines 113-117). -/
def update_ucb (m : AgentMemory) (action : String) (reward : ℚ) : AgentMemory :=
  match lookupStat action m.ucb_stats with
  | some _ =>
    let updated := m.ucb_stats.map
      (fun p => if p.1 = action then (p.1, (⟨p.2.total + reward, p.2.plays + 1⟩ : UcbStat)) else p)
    { m with ucb_stats := updated }
  | none =>
    { m with ucb_stats := m.ucb_stats ++ [(action, (⟨0 + reward, 0 + 1⟩ : UcbStat))] }

/-! ### KeyRecord and KeyManager (src/core/key_manager.py)

`time.time()` is passed in explicitly as `now`; all float arithmetic is
exact rational arithmetic. -/

structure KeyRecord where
  key : String
  provider : String
  keyAlias : String
  monthly_budget_usd : ℚ
  cost_per_1k_input : ℚ
  cost_per_1k_output : ℚ
  tokens_in : ℕ
  tokens_out : ℕ
  errors_429 : ℕ
  errors_5xx : ℕ
  last_used : ℚ
  cooldown_until : ℚ
  active : Bool
deriving DecidableEq

def estimated_cost_usd (k : KeyRecord) : ℚ :=
  (k.tokens_in : ℚ) / 1000 * k.cost_per_1k_input
    + (k.tokens_out : ℚ) / 1000 * k.cost_per_1k_output

def budget_remaining (k : KeyRecord) : ℚ :=
  max 0 (k.monthly_budget_usd - estimated_cost_usd k)

/-- `KeyRecord.is_available` (lines 33-38). -/
def is_available (k : KeyRecord) (now : ℚ) : Bool :=
  k.active && decide (k.cooldown_until ≤ now) && decide (1/1000 < budget_remaining k)

/-- `KeyRecord.health_score` (lines 40-49). -/
def health_score (k : KeyRecord) (now : ℚ) : ℚ :=
  let error_penalty : ℚ := ((k.errors_429 : ℚ) * 2 + (k.errors_5xx : ℚ)) * (5/100)
  let budget_factor : ℚ := min 1 (budget_remaining k / max (1/1000) k.monthly_budget_usd)
  let recency_boost : ℚ :=
    if k.last_used = 0 then 0 else min (5/100) (1 / max 1 (now - k.last_used))
  max 0 (budget_factor - error_penalty + recency_boost)

/-- `KeyRecord.record_usage` (lines 51-54). -/
def record_usage (k : KeyRecord) (tin tout : ℕ) (now : ℚ) : KeyRecord :=
  { k with tokens_in := k.tokens_in + tin, tokens_out := k.tokens_out + tout,
           last_used := now }

/-- `KeyRecord.record_error` (lines 56-63): the backoff is computed from the
already-incremented rate-limit counter. -/
def record_error (k : KeyRecord) (status : ℕ) (now : ℚ) : KeyRecord :=
  if status = 429 ∨ status = 529 then
    { k with errors_429 := k.errors_429 + 1,
             cooldown_until := now + min 300 (30 * (2 : ℚ) ^ min (k.errors_429 + 1) 4) }
  else if 500 ≤ status then
    { k with errors_5xx := k.errors_5xx + 1, cooldown_until := now + 15 }
  else k

/-- `KeyRecord.record_success` (lines 65-66); `Nat` subtraction is the
`max(0, ...)` of the source. -/
def record_success (k : KeyRecord) : KeyRecord :=
  { k with errors_429 := k.errors_429 - 1 }

inductive AcquireError
  | exhausted (waitS : ℚ)
  | noneAvailable
deriving DecidableEq

/-- `KeyManager.acquire` (lines 114-131).  The method only reads the pool,
so the embedding is a pure function of the key list. -/
def acquire (keys : List KeyRecord) (now : ℚ) : Except AcquireError KeyRecord :=
  match keys.filter (fun k => is_available k now) with
  | [] =>
    match (keys.filter (fun k => k.active && decide (now < k.cooldown_until))).map
        (fun k => k.cooldown_until) with
    | [] => .error .noneAvailable
    | c :: cs => .error (.exhausted (max 0 (cs.foldl min c - now)))
  | a :: rest => .ok (foldMax (fun k => health_score k now) a rest)

/-- `KeyManager.report_usage` (lines 133-139): update the first record whose
alias matches, then stop (the loop `break`s). -/
def report_usage (keys : List KeyRecord) (al : String) (tin tout : ℕ) (now : ℚ) :
    List KeyRecord :=
  match keys with
  | [] => []
  | k :: rest =>
    if k.keyAlias = al then record_success (record_usage k tin tout now) :: rest
    else k :: report_usage rest al tin tout now

/-- `KeyManager.report_error` (lines 141-146). -/
def report_error (keys : List KeyRecord) (al : String) (status : ℕ) (now : ℚ) :
    List KeyRecord :=
  match keys with
  | [] => []
  | k :: rest =>
    if k.keyAlias = al then record_error k status now :: rest
    else k :: report_error rest al status now

/-! ### Resilient call layer: `chat_full` (src/core/llm_client.py, lines 47-148)

The outcome of each network attempt is an input to the model (the code
cannot influence it); the random jitter drawn at attempt `i` is the input
`jitter i`.  The embedding records, alongside the overall result, the list
of statuses reported to the credential pool and the list of sleep
durations, in order. -/

/-- What a single request attempt does, as seen by `chat_full`. -/
inductive AttemptOutcome
  | ok (text : String)
  | httpError (status : ℕ) (body : String)
  | urlError (msg : String)
  | badJson (msg : String)

/-- The last transient cause remembered in `last_error`. -/
inductive TransientCause
  | http (status : ℕ) (body : String)
  | url (msg : String)
deriving DecidableEq

/-- Terminal failures of `chat_full`. -/
inductive ChatError
  | apiError (status : ℕ) (body : String)
  | badFormat (msg : String)
  | retriesExhausted (last : Option TransientCause)
deriving DecidableEq

def MAX_RETRIES : ℕ := 4

def BASE_DELAY : ℚ := 12/10

/-- `status in (429, 529) or status >= 500`. -/
def transientStatus (s : ℕ) : Prop := s = 429 ∨ s = 529 ∨ 500 ≤ s

instance (s : ℕ) : Decidable (transientStatus s) := by
  unfold transientStatus; infer_instance

/-- The `for attempt in range(MAX_RETRIES)` loop of `chat_full`.  Returns the
overall result, the statuses reported to the key pool, and the sleeps
performed, in order. -/
def chatLoop (outcomes : ℕ → AttemptOutcome) (jitter : ℕ → ℚ) :
    ℕ → ℕ → Option TransientCause → Except ChatError String × List ℕ × List ℚ
  | 0, _, last => (.error (.retriesExhausted last), [], [])
  | fuel + 1, attempt, _last =>
    match outcomes attempt with
    | .ok text => (.ok text, [], [])
    | .httpError s body =>
      if transientStatus s then
        let r := chatLoop outcomes jitter fuel (attempt + 1) (some (.http s body))
        (r.1, s :: r.2.1, (BASE_DELAY * 2 ^ attempt + jitter attempt) :: r.2.2)
      else (.error (.apiError s body), [s], [])
    | .urlError msg =>
      let r := chatLoop outcomes jitter fuel (attempt + 1) (some (.url msg))
      (r.1, 503 :: r.2.1, (BASE_DELAY * 2 ^ attempt) :: r.2.2)
    | .badJson msg => (.error (.badFormat msg), [], [])

/-- `chat_full`: at most `MAX_RETRIES = 4` attempts starting from attempt 0
with no remembered error. -/
def chat_full (outcomes : ℕ → AttemptOutcome) (jitter : ℕ → ℚ) :
    Except ChatError String × List ℕ × List ℚ :=
  chatLoop outcomes jitter MAX_RETRIES 0 none

/-- The statuses reported over `n` consecutive attempts starting at `attempt`. -/
def statusRun (st : ℕ → ℕ) : ℕ → ℕ → List ℕ
  | _, 0 => []
  | attempt, n + 1 => st attempt :: statusRun st (attempt + 1) n

/-- The sleeps performed over `n` consecutive transient-HTTP attempts
starting at `attempt`: `base_delay · 2^attempt + jitter(attempt)` each. -/
def sleepRun (jitter : ℕ → ℚ) : ℕ → ℕ → List ℚ
  | _, 0 => []
  | attempt, n + 1 =>
    (BASE_DELAY * 2 ^ attempt + jitter attempt) :: sleepRun jitter (attempt + 1) n

/-! ### Deterministic hash and text embedding (src/core/platform_utils.py,
lines 63-77)

`deterministic_hash` is the MD5 digest read as a big-endian hexadecimal
integer; the full MD5 algorithm is embedded below over `Nat` with explicit
`% 2^32` reductions. -/

def M32 : ℕ := 2 ^ 32

/-- 32-bit left rotation of `x < 2^32` by `s ≤ 32` bits. -/
def rotl32 (x s : ℕ) : ℕ := (x % 2 ^ (32 - s)) * 2 ^ s + x / 2 ^ (32 - s)

def mdF (b c d : ℕ) : ℕ := (b &&& c) ||| ((b ^^^ 0xffffffff) &&& d)

def mdG (b c d : ℕ) : ℕ := (d &&& b) ||| ((d ^^^ 0xffffffff) &&& c)

def mdH (b c d : ℕ) : ℕ := b ^^^ c ^^^ d

def mdI (b c d : ℕ) : ℕ := c ^^^ (b ||| (d ^^^ 0xffffffff))

/-- The MD5 sine-derived constant table `K`. -/
def md5K : List ℕ :=
  [0xd76aa478, 0xe8c7b756, 0x242070db, 0xc1bdceee,
   0xf57c0faf, 0x4787c62a, 0xa8304613, 0xfd469501,
   0x698098d8, 0x8b44f7af, 0xffff5bb1, 0x895cd7be,
   0x6b901122, 0xfd987193, 0xa679438e, 0x49b40821,
   0xf61e2562, 0xc040b340, 0x265e5a51, 0xe9b6c7aa,
   0xd62f105d, 0x02441453, 0xd8a1e681, 0xe7d3fbc8,
   0x21e1cde6, 0xc33707d6, 0xf4d50d87, 0x455a14ed,
   0xa9e3e905, 0xfcefa3f8, 0x676f02d9, 0x8d2a4c8a,
   0xfffa3942, 0x8771f681, 0x6d9d6122, 0xfde5380c,
   0xa4beea44, 0x4bdecfa9, 0xf6bb4b60, 0xbebfbc70,
   0x289b7ec6, 0xeaa127fa, 0xd4ef3085, 0x04881d05,
   0xd9d4d039, 0xe6db99e5, 0x1fa27cf8, 0xc4ac5665,
   0xf4292244, 0x432aff97, 0xab9423a7, 0xfc93a039,
   0x655b59c3, 0x8f0ccc92, 0xffeff47d, 0x85845dd1,
   0x6fa87e4f, 0xfe2ce6e0, 0xa3014314, 0x4e0811a1,
   0xf7537e82, 0xbd3af235, 0x2ad7d2bb, 0xeb86d391]

/-- The MD5 per-round shift table `s`. -/
def md5S : List ℕ :=
  [7, 12, 17, 22, 7, 12, 17, 22, 7, 12, 17, 22, 7, 12, 17, 22,
   5,  9, 14, 20, 5,  9, 14, 20, 5,  9, 14, 20, 5,  9, 14, 20,
   4, 11, 16, 23, 4, 11, 16, 23, 4, 11, 16, 23, 4, 11, 16, 23,
   6, 10, 15, 21, 6, 10, 15, 21, 6, 10, 15, 21, 6, 10, 15, 21]

/-- One MD5 operation on the running state `(a, b, c, d)`. -/
def md5Step (M : List ℕ) (i : ℕ) (st : ℕ × ℕ × ℕ × ℕ) : ℕ × ℕ × ℕ × ℕ :=
  let a := st.1
  let b := st.2.1
  let c := st.2.2.1
  let d := st.2.2.2
  let f :=
    if i < 16 then mdF b c d
    else if i < 32 then mdG b c d
    else if i < 48 then mdH b c d
    else mdI b c d
  let g :=
    if i < 16 then i
    else if i < 32 then (5 * i + 1) % 16
    else if i < 48 then (3 * i + 5) % 16
    else (7 * i) % 16
  let tmp := (f + a + md5K.getD i 0 + M.getD g 0) % M32
  (d, (b + rotl32 tmp (md5S.getD i 0)) % M32, b, c)

/-- Process one 64-byte block (already split into 16 little-endian words). -/
def md5Block (st : ℕ × ℕ × ℕ × ℕ) (M : List ℕ) : ℕ × ℕ × ℕ × ℕ :=
  let r := (List.range 64).foldl (fun s i => md5Step M i s) st
  ((st.1 + r.1) % M32, (st.2.1 + r.2.1) % M32,
   (st.2.2.1 + r.2.2.1) % M32, (st.2.2.2 + r.2.2.2) % M32)

/-- Split a byte list into 16 little-endian 32-bit words. -/
def md5Words (block : List ℕ) : List ℕ :=
  (List.range 16).map (fun j =>
    block.getD (4 * j) 0 + 256 * block.getD (4 * j + 1) 0
      + 65536 * block.getD (4 * j + 2) 0 + 16777216 * block.getD (4 * j + 3) 0)

/-- Cut a list into 64-element chunks; `fuel` bounds the recursion. -/
def chunk64 : ℕ → List ℕ → List (List ℕ)
  | 0, _ => []
  | _, [] => []
  | fuel + 1, l => l.take 64 :: chunk64 fuel (l.drop 64)

/-- Little-endian bytes of `n`, `w` bytes wide. -/
def leBytes : ℕ → ℕ → List ℕ
  | 0, _ => []
  | w + 1, n => n % 256 :: leBytes w (n / 256)

/-- MD5 padding: `0x80`, zeros to 56 mod 64, then the 64-bit little-endian
bit length. -/
def md5Pad (msg : List ℕ) : List ℕ :=
  msg ++ [0x80] ++ List.replicate ((55 - msg.length % 64) % 64) 0
    ++ leBytes 8 (8 * msg.length % 2 ^ 64)

/-- The four bytes of a 32-bit word, little-endian. -/
def wordBytes (x : ℕ) : List ℕ := leBytes 4 x

/-- MD5 digest of a byte string, as the list of 16 digest bytes. -/
def md5Digest (msg : List ℕ) : List ℕ :=
  let init : ℕ × ℕ × ℕ × ℕ := (0x67452301, 0xefcdab89, 0x98badcfe, 0x10325476)
  let padded := md5Pad msg
  let final := ((chunk64 (padded.length + 1) padded).map md5Words).foldl md5Block init
  wordBytes final.1 ++ wordBytes final.2.1 ++ wordBytes final.2.2.1 ++ wordBytes final.2.2.2

/-- UTF-8 encoding of one character (Lean `Char` excludes surrogates, so
`errors="replace"` never fires). -/
def utf8Bytes (c : Char) : List ℕ :=
  let n := c.toNat
  if n < 0x80 then [n]
  else if n < 0x800 then [0xc0 + n / 64, 0x80 + n % 64]
  else if n < 0x10000 then [0xe0 + n / 4096, 0x80 + n / 64 % 64, 0x80 + n % 64]
  else [0xf0 + n / 262144, 0x80 + n / 4096 % 64, 0x80 + n / 64 % 64, 0x80 + n % 64]

/-- `deterministic_hash` (lines 63-64): `int(md5(text.encode()).hexdigest(), 16)`,
i.e. the 16 digest bytes read as a big-endian integer. -/
def deterministic_hash (text : List Char) : ℕ :=
  (md5Digest ((text.map utf8Bytes).flatten)).foldl (fun acc b => acc * 256 + b) 0

/-- Python `str.split()`: split on whitespace runs, no empty tokens. -/
def pySplit (s : List Char) : List (List Char) :=
  ((s.splitOnP (fun c => isPySpace c)).filter (fun w => w ≠ []))

/-- Python `str.lower()` (ASCII case mapping suffices for the model). -/
def pyLower (s : List Char) : List Char := s.map Char.toLower

/-- The accumulation loop of `embed_text`: `vec[h % 64] += 1.0 / (i + 1)`
for the enumerated tokens. -/
def embedLoop : List (List Char) → ℕ → List ℚ → List ℚ
  | [], _, vec => vec
  | w :: ws, i, vec =>
    let idx := deterministic_hash w % 64
    embedLoop ws (i + 1) (vec.set idx (vec.getD idx 0 + 1 / ((i : ℚ) + 1)))

/-- The raw (pre-normalisation) 64-bucket vector over the first 64 tokens. -/
def embedRaw (words : List (List Char)) : List ℚ :=
  embedLoop (words.take 64) 0 (List.replicate 64 0)

/-- `embed_text` (lines 67-77): hashed bag-of-words vector, L2-normalised
whenever its norm is positive. -/
noncomputable def embed_text (text : String) : List ℝ :=
  let vec := embedRaw (pySplit (pyLower text.toList))
  let normSq : ℚ := (vec.map (fun x => x * x)).sum
  if 0 < normSq then List.map (fun x : ℚ => (x : ℝ) / Real.sqrt (normSq : ℝ)) vec
  else List.map (fun x : ℚ => (x : ℝ)) vec

/-- A concrete credential record used by the closed evaluation theorems. -/
def sampleKey : KeyRecord :=
  ⟨"sk", "anthropic", "primary", 10, 3/200, 3/40, 0, 0, 0, 0, 0, 0, true⟩

/-! ## Theorems -/

/-- `foldMax` keeps the first element attaining the maximal key: the input
splits around the result, everything strictly earlier has a strictly smaller
key, and nothing has a larger key. -/
theorem foldMax_spec {α β : Type} [LinearOrder β] (f : α → β) :
    ∀ (l : List α) (a : α), ∃ l₁ l₂, a :: l = l₁ ++ foldMax f a l :: l₂ ∧
      (∀ y ∈ l₁, f y < f (foldMax f a l)) ∧ ∀ y ∈ a :: l, f y ≤ f (foldMax f a l)
  | [], a => ⟨[], [], rfl, by simp, by simp [foldMax]⟩
  | x :: l, a => by
    by_cases h : f a < f x
    · have hunf : foldMax f a (x :: l) = foldMax f x l := by
        simp [foldMax, h]
      rcases foldMax_spec f l x with ⟨l₁, l₂, heq, hlt, hle⟩
      refine ⟨a :: l₁, l₂, ?_, ?_, ?_⟩
      · rw [hunf, List.cons_append, ← heq]
      · intro y hy
        rw [hunf]
        rcases List.mem_cons.mp hy with rfl | hy
        · exact lt_of_lt_of_le h (hle x (List.mem_cons_self x l))
        · exact hlt y hy
      · intro y hy
        rw [hunf]
        rcases List.mem_cons.mp hy with rfl | hy
        · exact le_of_lt (lt_of_lt_of_le h (hle x (List.mem_cons_self x l)))
        · exact hle y hy
    · have hunf : foldMax f a (x :: l) = foldMax f a l := by
        simp [foldMax, h]
      rcases foldMax_spec f l a with ⟨l₁, l₂, heq, hlt, hle⟩
      have hxa : f x ≤ f a := le_of_not_lt h
      cases l₁ with
      | nil =>
        have hpair : a = foldMax f a l ∧ l = l₂ :=
          List.cons_eq_cons.mp (by simpa using heq)
        have ha : a = foldMax f a l := hpair.1
        refine ⟨[], x :: l₂, ?_, ?_, ?_⟩
        · rw [hunf, List.nil_append, ← ha, ← hpair.2]
        · intro y hy; simp at hy
        · intro y hy
          rw [hunf]
          rcases List.mem_cons.mp hy with rfl | hy
          · exact hle y (List.mem_cons_self y l)
          · rcases List.mem_cons.mp hy with rfl | hy
            · exact le_trans hxa (hle a (List.mem_cons_self a l))
            · exact hle y (List.mem_cons_of_mem a hy)
      | cons b t =>
        have hab : a = b ∧ l = t ++ foldMax f a l :: l₂ := by
          have := heq
          simp only [List.cons_append] at this
          exact ⟨List.head_eq_of_cons_eq this, List.tail_eq_of_cons_eq this⟩
        refine ⟨a :: x :: t, l₂, ?_, ?_, ?_⟩
        · rw [hunf]
          simp only [List.cons_append]
          rw [← hab.2]
        · intro y hy
          rw [hunf]
          have hblt : f a < f (foldMax f a l) := by
            have := hlt b (List.mem_cons_self b t)
            rwa [← hab.1] at this
          rcases List.mem_cons.mp hy with rfl | hy
          · exact hblt
          · rcases List.mem_cons.mp hy with rfl | hy
            · exact lt_of_le_of_lt hxa hblt
            · exact hlt y (List.mem_cons_of_mem b hy)
        · intro y hy
          rw [hunf]
          rcases List.mem_cons.mp hy with rfl | hy
          · exact hle y (List.mem_cons_self y l)
          · rcases List.mem_cons.mp hy with rfl | hy
            · exact le_trans hxa (hle a (List.mem_cons_self a l))
            · exact hle y (List.mem_cons_of_mem a hy)

/-- The result of `foldMax` is an element of the scanned list. -/
theorem foldMax_mem {α β : Type} [LinearOrder β] (f : α → β) (l : List α) (a : α) :
    foldMax f a l ∈ a :: l := by
  rcases foldMax_spec f l a with ⟨l₁, l₂, heq, -, -⟩
  rw [heq]
  exact List.mem_append.mpr (Or.inr (List.mem_cons_self _ _))

/-- No scanned element has a key above the result's. -/
theorem foldMax_le {α β : Type} [LinearOrder β] (f : α → β) (l : List α) (a : α) :
    ∀ y ∈ a :: l, f y ≤ f (foldMax f a l) :=
  (foldMax_spec f l a).choose_spec.choose_spec.2.2

/-- C10: `PromptCandidate.win_rate` returns `0.5` for every candidate with
zero evaluations; consequently the evolution seed selection (argmax over raw
win rate) can prefer a never-evaluated candidate over a candidate whose
observed win rate is below `0.5`. -/
theorem win_rate_default_seed (c : PromptCandidate) (h : c.wins + c.losses = 0) :
    win_rate c = 1/2 ∧
    ∃ a b : PromptCandidate, a.wins + a.losses = 0 ∧ 0 < b.wins + b.losses ∧
      win_rate b < 1/2 ∧ evolve_seed b [a] = a := by
  constructor
  · simp [win_rate, h]
  · refine ⟨⟨"fresh", "ag", "t", 0, 0, 0, 0, 0, 0⟩,
      ⟨"old", "ag", "t", 1, 3, 0, 0, 0, 0⟩, by decide, by decide, ?_, ?_⟩
    · show win_rate ⟨"old", "ag", "t", 1, 3, 0, 0, 0, 0⟩ < 1/2
      norm_num [win_rate]
    · show evolve_seed _ [_] = _
      norm_num [evolve_seed, foldMax, win_rate]

/-- Witness for C10 at a concrete never-evaluated candidate. -/
theorem win_rate_default_seed_witness :
    win_rate ⟨"w", "ag", "t", 0, 0, 0, 0, 0, 0⟩ = 1/2 :=
  (win_rate_default_seed ⟨"w", "ag", "t", 0, 0, 0, 0, 0, 0⟩ (by decide)).1

/-- The 429/529 backoff as a function of the (already incremented) rate-limit
error count. -/
def backoff429 (e : ℕ) : ℚ := min 300 (30 * (2 : ℚ) ^ min e 4)

theorem backoff429_mono {e e' : ℕ} (h : e ≤ e') : backoff429 e ≤ backoff429 e' := by
  unfold backoff429
  refine min_le_min le_rfl ?_
  have h2 : (1 : ℚ) ≤ 2 := by norm_num
  have := pow_le_pow_right₀ h2 (min_le_min h (le_refl 4))
  nlinarith [this]

theorem backoff429_le (e : ℕ) : backoff429 e ≤ 300 := min_le_left _ _

/-- C5: `record_error` with status 429 (or 529) increments the rate-limit
counter and sets `cooldown_until = now + min(300, 30·2^min(errCount, 4))`
(with `errCount` the incremented counter); four consecutive such calls give a
non-decreasing sequence of `cooldown_until − now` values, never above 300. -/
theorem record_error_backoff (k : KeyRecord) (now n1 n2 n3 n4 : ℚ) :
    (record_error k 429 now).errors_429 = k.errors_429 + 1 ∧
    (record_error k 429 now).cooldown_until = now + backoff429 (k.errors_429 + 1) ∧
    (record_error k 529 now).errors_429 = k.errors_429 + 1 ∧
    (record_error k 529 now).cooldown_until = now + backoff429 (k.errors_429 + 1) ∧
    (record_error (record_error (record_error (record_error k 429 n1) 429 n2) 429 n3)
        429 n4).errors_429 = k.errors_429 + 4 ∧
    ((record_error k 429 n1).cooldown_until - n1
        ≤ (record_error (record_error k 429 n1) 429 n2).cooldown_until - n2 ∧
     (record_error (record_error k 429 n1) 429 n2).cooldown_until - n2
        ≤ (record_error (record_error (record_error k 429 n1) 429 n2) 429 n3).cooldown_until
            - n3 ∧
     (record_error (record_error (record_error k 429 n1) 429 n2) 429 n3).cooldown_until - n3
        ≤ (record_error (record_error (record_error (record_error k 429 n1) 429 n2) 429 n3)
            429 n4).cooldown_until - n4) ∧
    (∀ n, (record_error k 429 n).cooldown_until - n ≤ 300) := by
  have h429 : ∀ (k' : KeyRecord) (n : ℚ),
      record_error k' 429 n =
        { k' with errors_429 := k'.errors_429 + 1,
                  cooldown_until := n + backoff429 (k'.errors_429 + 1) } := by
    intro k' n
    simp [record_error, backoff429]
  have h529 : ∀ (k' : KeyRecord) (n : ℚ),
      record_error k' 529 n =
        { k' with errors_429 := k'.errors_429 + 1,
                  cooldown_until := n + backoff429 (k'.errors_429 + 1) } := by
    intro k' n
    simp [record_error, backoff429]
  refine ⟨by rw [h429], by rw [h429], by rw [h529], by rw [h529], ?_, ⟨?_, ?_, ?_⟩, ?_⟩
  · simp only [h429]
  · simp only [h429]
    have := backoff429_mono (Nat.le_succ (k.errors_429 + 1))
    simp only [add_sub_cancel_left]
    linarith
  · simp only [h429]
    have := backoff429_mono (Nat.le_succ (k.errors_429 + 2))
    simp only [add_sub_cancel_left]
    linarith
  · simp only [h429]
    have := backoff429_mono (Nat.le_succ (k.errors_429 + 3))
    simp only [add_sub_cancel_left]
    linarith
  · intro n
    simp only [h429, add_sub_cancel_left]
    exact backoff429_le _

/-- C6: `health_score` is monotonically non-increasing in each error counter
holding all other fields fixed, monotonically non-decreasing in
`budget_remaining` (varied through the token counters) holding all else
fixed, and never negative. -/
theorem health_score_monotone (k : KeyRecord) (now : ℚ) :
    (∀ e', k.errors_429 ≤ e' →
       health_score { k with errors_429 := e' } now ≤ health_score k now) ∧
    (∀ e', k.errors_5xx ≤ e' →
       health_score { k with errors_5xx := e' } now ≤ health_score k now) ∧
    (∀ ti tou : ℕ,
       budget_remaining k ≤ budget_remaining { k with tokens_in := ti, tokens_out := tou } →
       health_score k now ≤ health_score { k with tokens_in := ti, tokens_out := tou } now) ∧
    0 ≤ health_score k now := by
  refine ⟨?_, ?_, ?_, le_max_left 0 _⟩
  · intro e' he
    unfold health_score
    simp only
    have hpen : ((k.errors_429 : ℚ) * 2 + (k.errors_5xx : ℚ)) * (5/100)
        ≤ ((e' : ℚ) * 2 + (k.errors_5xx : ℚ)) * (5/100) := by
      have : (k.errors_429 : ℚ) ≤ (e' : ℚ) := by exact_mod_cast he
      nlinarith
    have hbud : budget_remaining { k with errors_429 := e' } = budget_remaining k := rfl
    rw [hbud]
    exact max_le_max le_rfl (by linarith)
  · intro e' he
    unfold health_score
    simp only
    have hpen : ((k.errors_429 : ℚ) * 2 + (k.errors_5xx : ℚ)) * (5/100)
        ≤ ((k.errors_429 : ℚ) * 2 + (e' : ℚ)) * (5/100) := by
      have : (k.errors_5xx : ℚ) ≤ (e' : ℚ) := by exact_mod_cast he
      nlinarith
    have hbud : budget_remaining { k with errors_5xx := e' } = budget_remaining k := rfl
    rw [hbud]
    exact max_le_max le_rfl (by linarith)
  · intro ti tou hbr
    unfold health_score
    simp only
    have hd : (0 : ℚ) < max (1/1000) k.monthly_budget_usd :=
      lt_of_lt_of_le (by norm_num) (le_max_left _ _)
    have hbf : budget_remaining k / max (1/1000) k.monthly_budget_usd
        ≤ budget_remaining { k with tokens_in := ti, tokens_out := tou }
            / max (1/1000) k.monthly_budget_usd :=
      div_le_div_of_nonneg_right hbr hd.le |>.trans_eq rfl
    exact max_le_max le_rfl (by
      have := min_le_min (le_refl (1 : ℚ)) hbf
      linarith [this])

/-- Witness for C6 at a concrete credential record. -/
theorem health_score_monotone_witness :
    health_score { sampleKey with errors_429 := 2 } 0
      ≤ health_score { sampleKey with errors_429 := 1 } 0 :=
  (health_score_monotone { sampleKey with errors_429 := 1 } 0).1 2 (by norm_num)

/-- `report_usage` on a pool with no matching alias is the identity. -/
theorem report_usage_no_match (al : String) (tin tout : ℕ) (now : ℚ) :
    ∀ keys : List KeyRecord, (∀ k ∈ keys, k.keyAlias ≠ al) →
      report_usage keys al tin tout now = keys
  | [], _ => rfl
  | k :: rest, h => by
    have hk : k.keyAlias ≠ al := h k (List.mem_cons_self k rest)
    simp only [report_usage, if_neg hk]
    rw [report_usage_no_match al tin tout now rest
      (fun y hy => h y (List.mem_cons_of_mem k hy))]

/-- `report_error` on a pool with no matching alias is the identity. -/
theorem report_error_no_match (al : String) (status : ℕ) (now : ℚ) :
    ∀ keys : List KeyRecord, (∀ k ∈ keys, k.keyAlias ≠ al) →
      report_error keys al status now = keys
  | [], _ => rfl
  | k :: rest, h => by
    have hk : k.keyAlias ≠ al := h k (List.mem_cons_self k rest)
    simp only [report_error, if_neg hk]
    rw [report_error_no_match al status now rest
      (fun y hy => h y (List.mem_cons_of_mem k hy))]

/-- `report_usage` rewrites exactly the first matching record. -/
theorem report_usage_split (al : String) (tin tout : ℕ) (now : ℚ)
    (k : KeyRecord) (l₂ : List KeyRecord) (hk : k.keyAlias = al) :
    ∀ l₁ : List KeyRecord, (∀ y ∈ l₁, y.keyAlias ≠ al) →
      report_usage (l₁ ++ k :: l₂) al tin tout now
        = l₁ ++ record_success (record_usage k tin tout now) :: l₂
  | [], _ => by simp [report_usage, hk]
  | y :: t, h => by
    have hy : y.keyAlias ≠ al := h y (List.mem_cons_self y t)
    simp only [List.cons_append, report_usage, if_neg hy]
    exact congrArg (fun s => y :: s) (report_usage_split al tin tout now k l₂ hk t
      (fun z hz => h z (List.mem_cons_of_mem y hz)))

/-- `report_error` rewrites exactly the first matching record. -/
theorem report_error_split (al : String) (status : ℕ) (now : ℚ)
    (k : KeyRecord) (l₂ : List KeyRecord) (hk : k.keyAlias = al) :
    ∀ l₁ : List KeyRecord, (∀ y ∈ l₁, y.keyAlias ≠ al) →
      report_error (l₁ ++ k :: l₂) al status now
        = l₁ ++ record_error k status now :: l₂
  | [], _ => by simp [report_error, hk]
  | y :: t, h => by
    have hy : y.keyAlias ≠ al := h y (List.mem_cons_self y t)
    simp only [List.cons_append, report_error, if_neg hy]
    exact congrArg (fun s => y :: s) (report_error_split al status now k l₂ hk t
      (fun z hz => h z (List.mem_cons_of_mem y hz)))

/-- C9: `report_usage` and `report_error` with an alias matching no
credential leave every record unchanged; with a matching alias only the
first matching record is rewritten and every other record is untouched. -/
theorem report_alias_frame (keys : List KeyRecord) (al : String) (tin tout : ℕ)
    (status : ℕ) (now : ℚ) :
    ((∀ k ∈ keys, k.keyAlias ≠ al) →
       report_usage keys al tin tout now = keys ∧
       report_error keys al status now = keys) ∧
    (∀ (l₁ : List KeyRecord) (k : KeyRecord) (l₂ : List KeyRecord),
       keys = l₁ ++ k :: l₂ → (∀ y ∈ l₁, y.keyAlias ≠ al) → k.keyAlias = al →
       report_usage keys al tin tout now
           = l₁ ++ record_success (record_usage k tin tout now) :: l₂ ∧
       report_error keys al status now = l₁ ++ record_error k status now :: l₂) := by
  constructor
  · intro h
    exact ⟨report_usage_no_match al tin tout now keys h,
      report_error_no_match al status now keys h⟩
  · intro l₁ k l₂ hkeys hl₁ hk
    subst hkeys
    exact ⟨report_usage_split al tin tout now k l₂ hk l₁ hl₁,
      report_error_split al status now k l₂ hk l₁ hl₁⟩

/-- Witness for C9: a one-record pool with a non-matching alias is untouched. -/
theorem report_alias_frame_witness :
    report_usage [sampleKey] "key_1" 5 7 2 = [sampleKey] :=
  ((report_alias_frame [sampleKey] "key_1" 5 7 503 2).1 (by decide)).1

/-- A left fold of `min` lands on a member of the scanned values. -/
theorem foldl_min_mem : ∀ (l : List ℚ) (c : ℚ), l.foldl min c ∈ c :: l
  | [], c => by simp
  | x :: l, c => by
    simp only [List.foldl_cons]
    rcases List.mem_cons.mp (foldl_min_mem l (min c x)) with h | h
    · rcases min_choice c x with hm | hm
      · rw [h, hm]; exact List.mem_cons_self _ _
      · rw [h, hm]; exact List.mem_cons_of_mem _ (List.mem_cons_self _ _)
    · exact List.mem_cons_of_mem _ (List.mem_cons_of_mem _ h)

/-- A left fold of `min` is a lower bound of the scanned values. -/
theorem foldl_min_le : ∀ (l : List ℚ) (c : ℚ), ∀ y ∈ c :: l, l.foldl min c ≤ y
  | [], c => by simp
  | x :: l, c => by
    intro y hy
    simp only [List.foldl_cons]
    have IH := foldl_min_le l (min c x)
    rcases List.mem_cons.mp hy with rfl | hy
    · exact le_trans (IH (min y x) (List.mem_cons_self _ _)) (min_le_left y x)
    · rcases List.mem_cons.mp hy with rfl | hy
      · exact le_trans (IH (min c y) (List.mem_cons_self _ _)) (min_le_right c y)
      · exact IH y (List.mem_cons_of_mem _ hy)

/-- C3: `acquire` filters to credentials that are active, past cooldown, and
above the budget threshold; with no qualifying credential it fails with
`Exhausted` carrying the shortest remaining cooldown when some active
credential is still cooling down, and with `NoneAvailable` otherwise; with
qualifying credentials it returns a qualifying one of maximal health score.
(The source method only reads the pool, so the embedding is a pure function
of the records and cannot change them.) -/
theorem acquire_spec (keys : List KeyRecord) (now : ℚ) :
    (∀ k : KeyRecord, is_available k now = true ↔
       (k.active = true ∧ k.cooldown_until ≤ now ∧ 1/1000 < budget_remaining k)) ∧
    (keys.filter (fun k => is_available k now) = [] →
       ((∃ k ∈ keys, k.active = true ∧ now < k.cooldown_until) →
          ∃ w, acquire keys now = .error (.exhausted w) ∧
            (∃ k ∈ keys, k.active = true ∧ now < k.cooldown_until ∧
               w = max 0 (k.cooldown_until - now)) ∧
            ∀ k ∈ keys, k.active = true → now < k.cooldown_until →
               w ≤ max 0 (k.cooldown_until - now)) ∧
       ((∀ k ∈ keys, ¬(k.active = true ∧ now < k.cooldown_until)) →
          acquire keys now = .error .noneAvailable)) ∧
    (keys.filter (fun k => is_available k now) ≠ [] →
       ∃ k, acquire keys now = .ok k ∧ k ∈ keys ∧ is_available k now = true ∧
         ∀ y ∈ keys, is_available y now = true →
           health_score y now ≤ health_score k now) := by
  refine ⟨?_, ?_, ?_⟩
  · intro k
    simp [is_available, Bool.and_eq_true, decide_eq_true_eq, and_assoc]
  · intro hfil
    constructor
    · rintro ⟨k, hk, hact, hcool⟩
      have hk2 : k ∈ keys.filter (fun k => k.active && decide (now < k.cooldown_until)) :=
        List.mem_filter.mpr ⟨hk, by simp [hact, hcool]⟩
      cases hmap : (keys.filter (fun k => k.active && decide (now < k.cooldown_until))).map
          (fun k => k.cooldown_until) with
      | nil =>
        exact absurd (List.map_eq_nil_iff.mp hmap ▸ hk2) (List.not_mem_nil k)
      | cons c cs =>
        have hacq : acquire keys now = .error (.exhausted (max 0 (cs.foldl min c - now))) := by
          unfold acquire
          rw [hfil, hmap]
        refine ⟨max 0 (cs.foldl min c - now), hacq, ?_, ?_⟩
        · have hmem : cs.foldl min c ∈ c :: cs := foldl_min_mem cs c
          rw [← hmap] at hmem
          rcases List.mem_map.mp hmem with ⟨k', hk', hck⟩
          rcases List.mem_filter.mp hk' with ⟨hk'keys, hk'p⟩
          have hk'p2 : k'.active = true ∧ now < k'.cooldown_until := by simpa using hk'p
          exact ⟨k', hk'keys, hk'p2.1, hk'p2.2, by rw [hck]⟩
        · intro k'' hk''keys ha'' hc''
          have hk''f : k'' ∈ keys.filter
              (fun k => k.active && decide (now < k.cooldown_until)) :=
            List.mem_filter.mpr ⟨hk''keys, by simp [ha'', hc'']⟩
          have hcmem : k''.cooldown_until ∈ c :: cs := by
            rw [← hmap]
            exact List.mem_map.mpr ⟨k'', hk''f, rfl⟩
          have hle := foldl_min_le cs c k''.cooldown_until hcmem
          exact max_le_max le_rfl (sub_le_sub_right hle now)
    · intro hnone
      have hfil2 : keys.filter (fun k => k.active && decide (now < k.cooldown_until)) = [] := by
        rw [List.filter_eq_nil_iff]
        intro k hk
        have := hnone k hk
        simp only [Bool.and_eq_true, decide_eq_true_eq, not_and] at this ⊢
        intro ha
        exact fun hc => this ha hc
      unfold acquire
      rw [hfil, hfil2]
      rfl
  · intro hne
    cases hfa : keys.filter (fun k => is_available k now) with
    | nil => exact absurd hfa hne
    | cons a rest =>
      have hacq : acquire keys now = .ok (foldMax (fun k => health_score k now) a rest) := by
        unfold acquire
        rw [hfa]
      have hmem : foldMax (fun k => health_score k now) a rest ∈ a :: rest :=
        foldMax_mem _ rest a
      rw [← hfa] at hmem
      rcases List.mem_filter.mp hmem with ⟨hkeys, hav⟩
      refine ⟨_, hacq, hkeys, hav, ?_⟩
      intro y hy hyav
      have hyf : y ∈ a :: rest := by
        rw [← hfa]
        exact List.mem_filter.mpr ⟨hy, hyav⟩
      exact foldMax_le (fun k => health_score k now) rest a y hyf

/-- Witness for C3: a one-record pool with an available credential yields it. -/
theorem acquire_spec_witness :
    ∃ k, acquire [sampleKey] 0 = .ok k ∧ k ∈ [sampleKey] := by
  obtain ⟨k, h1, h2, -, -⟩ := (acquire_spec [sampleKey] 0).2.2 (by
    norm_num [List.filter, is_available, sampleKey, budget_remaining, estimated_cost_usd])
  exact ⟨k, h1, h2⟩

/-- A successful `lookupStat` finds an actual entry of the list. -/
theorem lookupStat_mem (a : String) (v : UcbStat) :
    ∀ l : List (String × UcbStat), lookupStat a l = some v → (a, v) ∈ l
  | [], h => by simp [lookupStat] at h
  | (k, w) :: rest, h => by
    by_cases hk : k = a
    · simp only [lookupStat, if_pos hk] at h
      cases h
      subst hk
      exact List.mem_cons_self _ _
    · simp only [lookupStat, if_neg hk] at h
      exact List.mem_cons_of_mem _ (lookupStat_mem a v rest h)

/-- `firstUnseen` really is the first candidate absent from the stats. -/
theorem firstUnseen_split (stats : List (String × UcbStat)) (a : String) :
    ∀ cands : List String, firstUnseen stats cands = some a →
      a ∈ cands ∧ lookupStat a stats = none ∧
        ∃ l₁ l₂, cands = l₁ ++ a :: l₂ ∧ ∀ y ∈ l₁, lookupStat y stats ≠ none
  | [], h => by simp [firstUnseen] at h
  | c :: rest, h => by
    by_cases hc : lookupStat c stats = none
    · simp only [firstUnseen, if_pos hc] at h
      cases h
      exact ⟨List.mem_cons_self _ _, hc, [], rest, rfl, by simp⟩
    · simp only [firstUnseen, if_neg hc] at h
      rcases firstUnseen_split stats a rest h with ⟨hmem, hnone, l₁, l₂, heq, hall⟩
      refine ⟨List.mem_cons_of_mem _ hmem, hnone, c :: l₁, l₂,
        by rw [heq, List.cons_append], ?_⟩
      intro y hy
      rcases List.mem_cons.mp hy with rfl | hy
      · exact hc
      · exact hall y hy

/-- When every recorded action has at least one play, the candidate loop
returns the first unseen candidate no matter the accumulator state. -/
theorem ucbLoop_first (stats : List (String × UcbStat)) (tp : ℕ) (a : String)
    (hInv : ∀ p ∈ stats, 1 ≤ p.2.plays) :
    ∀ (cands : List String) (bs : ℝ) (b : Option String),
      firstUnseen stats cands = some a → ucbLoop stats tp cands bs b = some a
  | [], bs, b, h => by simp [firstUnseen] at h
  | c :: rest, bs, b, h => by
    by_cases hc : lookupStat c stats = none
    · simp only [firstUnseen, if_pos hc] at h
      simp only [ucbLoop, hc, Option.getD_none]
      exact h
    · simp only [firstUnseen, if_neg hc] at h
      rcases Option.ne_none_iff_exists'.mp hc with ⟨st, hst⟩
      have hplays : 1 ≤ st.plays := hInv (c, st) (lookupStat_mem c st stats hst)
      simp only [ucbLoop, hst, Option.getD_some]
      rw [if_neg (by omega)]
      split
      · exact ucbLoop_first stats tp a hInv rest _ _ h
      · exact ucbLoop_first stats tp a hInv rest _ _ h

/-- `update_ucb` preserves the reachable-state invariant that every recorded
action has at least one play (it creates entries at one play and only ever
increments), which justifies identifying "absent from `ucb_stats`" with
"zero recorded plays". -/
theorem update_ucb_plays_pos (m : AgentMemory) (action : String) (reward : ℚ)
    (hInv : ∀ p ∈ m.ucb_stats, 1 ≤ p.2.plays) :
    ∀ p ∈ (update_ucb m action reward).ucb_stats, 1 ≤ p.2.plays := by
  intro p hp
  unfold update_ucb at hp
  rcases hcase : lookupStat action m.ucb_stats with _ | st
  · rw [hcase] at hp
    simp only at hp
    rcases List.mem_append.mp hp with hp | hp
    · exact hInv p hp
    · rcases List.mem_singleton.mp hp with rfl
      norm_num
  · rw [hcase] at hp
    simp only at hp
    rcases List.mem_map.mp hp with ⟨q, hq, hqe⟩
    by_cases hqa : q.1 = action
    · rw [if_pos hqa] at hqe
      rw [← hqe]
      exact Nat.succ_le_succ (Nat.zero_le _)
    · rw [if_neg hqa] at hqe
      rw [← hqe]
      exact hInv q hq

/-- C2: whenever the candidate list contains an action absent from
`ucb_stats` (equivalently, with zero recorded plays, since every recorded
entry has at least one play), `ucb_best_action` returns the first such
action, and it returns `none` exactly when no bandit stats exist at all. -/
theorem ucb_best_action_unseen (m : AgentMemory) (candidates : List String)
    (a : String) (hInv : ∀ p ∈ m.ucb_stats, 1 ≤ p.2.plays)
    (hfu : firstUnseen m.ucb_stats candidates = some a) :
    (m.ucb_stats ≠ [] → ucb_best_action m candidates = some a) ∧
    (ucb_best_action m candidates = none ↔ m.ucb_stats = []) ∧
    a ∈ candidates ∧ lookupStat a m.ucb_stats = none := by
  have hsplit := firstUnseen_split m.ucb_stats a candidates hfu
  have hsome : m.ucb_stats ≠ [] → ucb_best_action m candidates = some a := by
    intro hne
    unfold ucb_best_action
    rw [if_neg hne]
    exact ucbLoop_first m.ucb_stats (totalPlays m.ucb_stats) a hInv candidates _ _ hfu
  refine ⟨hsome, ⟨?_, ?_⟩, hsplit.1, hsplit.2.1⟩
  · intro hnone
    by_contra hne
    rw [hsome hne] at hnone
    exact Option.noConfusion hnone
  · intro he
    unfold ucb_best_action
    rw [if_pos he]

/-- Witness for C2: stats over one played action, candidate list holding one
unseen action. -/
theorem ucb_best_action_unseen_witness :
    ucb_best_action
        { agent_id := "a1", name := "n", char_class := "warrior", level := 1,
          wins := 0, losses := 0, dmg_dealt := 0, dmg_taken := 0,
          pref_actions := [], opp_models := [],
          ucb_stats := [("strike", ⟨1, 1⟩)] } ["guard"] = some "guard" :=
  (ucb_best_action_unseen
    { agent_id := "a1", name := "n", char_class := "warrior", level := 1,
      wins := 0, losses := 0, dmg_dealt := 0, dmg_taken := 0,
      pref_actions := [], opp_models := [],
      ucb_stats := [("strike", ⟨1, 1⟩)] } ["guard"] "guard"
    (by decide) (by decide)).1 (by decide)

/-- C1: whenever `_select_ucb1` returns a candidate, that candidate is a
member of the pool, maximises the UCB score, is the first such maximiser in
pool order, and has zero evaluations whenever any pool member does (every
zero-evaluation candidate scores `⊤`); on the empty pool the operation fails
with the `"No prompt candidates available"` error. -/
theorem select_ucb1_spec (cs : List PromptCandidate) (c₀ : PromptCandidate)
    (h : select_ucb1 cs = .ok c₀) :
    c₀ ∈ cs ∧
    (∀ y ∈ cs, ucb_score y (totalEvals cs) ≤ ucb_score c₀ (totalEvals cs)) ∧
    (∃ l₁ l₂, cs = l₁ ++ c₀ :: l₂ ∧
       ∀ y ∈ l₁, ucb_score y (totalEvals cs) < ucb_score c₀ (totalEvals cs)) ∧
    ((∃ z ∈ cs, z.wins + z.losses = 0) → c₀.wins + c₀.losses = 0) ∧
    (∀ z : PromptCandidate, ∀ t : ℕ, z.wins + z.losses = 0 → ucb_score z t = ⊤) ∧
    select_ucb1 [] = Except.error "No prompt candidates available" := by
  have htop : ∀ z : PromptCandidate, ∀ t : ℕ, z.wins + z.losses = 0 → ucb_score z t = ⊤ := by
    intro z t hz
    simp [ucb_score, hz]
  cases cs with
  | nil => exact absurd h (by simp [select_ucb1])
  | cons c rest =>
    have hc₀ : c₀ = foldMax (fun x => ucb_score x (totalEvals (c :: rest))) c rest := by
      have := h
      simp only [select_ucb1] at this
      exact (Except.ok.injEq _ _).mp this.symm
    rcases foldMax_spec (fun x => ucb_score x (totalEvals (c :: rest))) rest c with
      ⟨l₁, l₂, heq, hlt, hle⟩
    rw [← hc₀] at heq hlt hle
    refine ⟨?_, hle, ⟨l₁, l₂, heq, hlt⟩, ?_, htop, by simp [select_ucb1]⟩
    · rw [heq]
      exact List.mem_append.mpr (Or.inr (List.mem_cons_self _ _))
    · rintro ⟨z, hz, hz0⟩
      have hzle := hle z hz
      rw [htop z _ hz0] at hzle
      have hc₀top : ucb_score c₀ (totalEvals (c :: rest)) = ⊤ := top_le_iff.mp hzle
      by_contra hne
      have : ucb_score c₀ (totalEvals (c :: rest)) ≠ ⊤ := by
        simp only [ucb_score, if_neg hne]
        exact WithTop.coe_ne_top
      exact this hc₀top

/-- Witness for C1: a singleton pool returns its only candidate. -/
theorem select_ucb1_spec_witness :
    select_ucb1 [⟨"seed", "ag", "t", 0, 0, 0, 0, 0, 0⟩]
        = .ok ⟨"seed", "ag", "t", 0, 0, 0, 0, 0, 0⟩ ∧
    (⟨"seed", "ag", "t", 0, 0, 0, 0, 0, 0⟩ : PromptCandidate)
        ∈ [(⟨"seed", "ag", "t", 0, 0, 0, 0, 0, 0⟩ : PromptCandidate)] := by
  have hsel : select_ucb1 [⟨"seed", "ag", "t", 0, 0, 0, 0, 0, 0⟩]
      = .ok ⟨"seed", "ag", "t", 0, 0, 0, 0, 0, 0⟩ := by
    simp [select_ucb1, foldMax]
  exact ⟨hsel, (select_ucb1_spec _ _ hsel).1⟩

/-- `statusRun` as a range map. -/
theorem statusRun_eq (st : ℕ → ℕ) :
    ∀ (n attempt : ℕ), statusRun st attempt n = (List.range n).map (fun i => st (attempt + i))
  | 0, attempt => by simp [statusRun]
  | n + 1, attempt => by
    rw [List.range_succ_eq_map]
    simp only [statusRun, List.map_cons, List.map_map, statusRun_eq st n (attempt + 1)]
    refine congrArg₂ _ (by rw [Nat.add_zero]) ?_
    apply List.map_congr_left
    intro i _
    simp only [Function.comp_apply]
    congr 1
    omega

/-- `sleepRun` as a range map. -/
theorem sleepRun_eq (jitter : ℕ → ℚ) :
    ∀ (n attempt : ℕ), sleepRun jitter attempt n
      = (List.range n).map (fun i => BASE_DELAY * 2 ^ (attempt + i) + jitter (attempt + i))
  | 0, attempt => by simp [sleepRun]
  | n + 1, attempt => by
    rw [List.range_succ_eq_map]
    simp only [sleepRun, List.map_cons, List.map_map, sleepRun_eq jitter n (attempt + 1)]
    refine congrArg₂ _ (by rw [Nat.add_zero]) ?_
    apply List.map_congr_left
    intro i _
    simp only [Function.comp_apply]
    have h : attempt + 1 + i = attempt + (i + 1) := by omega
    rw [h]

/-- A run of `k` transient HTTP attempts followed by a fatal (non-transient,
non-2xx) HTTP status surfaces the fatal status immediately: one terminal
`apiError`, `k + 1` reports, `k` sleeps. -/
theorem chatLoop_fatal (outcomes : ℕ → AttemptOutcome) (jitter : ℕ → ℚ)
    (st : ℕ → ℕ) (bd : ℕ → String) :
    ∀ (k fuel attempt : ℕ) (last : Option TransientCause),
      k < fuel →
      (∀ i, i ≤ k → outcomes (attempt + i) = .httpError (st (attempt + i)) (bd (attempt + i))) →
      (∀ i, i < k → transientStatus (st (attempt + i))) →
      ¬ transientStatus (st (attempt + k)) →
      chatLoop outcomes jitter fuel attempt last =
        (.error (.apiError (st (attempt + k)) (bd (attempt + k))),
         statusRun st attempt (k + 1), sleepRun jitter attempt k)
  | 0, fuel, attempt, last, hk, hout, _, hfat => by
    cases fuel with
    | zero => omega
    | succ f =>
      have h0 := hout 0 (le_refl 0)
      simp only [Nat.add_zero] at h0 hfat
      simp only [chatLoop, h0, if_neg hfat]
      simp [statusRun, sleepRun, Nat.add_zero]
  | k + 1, fuel, attempt, last, hk, hout, htr, hfat => by
    cases fuel with
    | zero => omega
    | succ f =>
      have h0 := hout 0 (Nat.zero_le _)
      simp only [Nat.add_zero] at h0
      have ht0 : transientStatus (st attempt) := by
        have := htr 0 (Nat.succ_pos k)
        simpa using this
      have hr := chatLoop_fatal outcomes jitter st bd k f (attempt + 1)
        (some (.http (st attempt) (bd attempt)))
        (by omega)
        (fun i hi => by
          have := hout (i + 1) (by omega)
          rwa [show attempt + (i + 1) = attempt + 1 + i by omega] at this)
        (fun i hi => by
          have := htr (i + 1) (by omega)
          rwa [show attempt + (i + 1) = attempt + 1 + i by omega] at this)
        (by
          have := hfat
          rwa [show attempt + (k + 1) = attempt + 1 + k by omega] at this)
      simp only [chatLoop, h0, if_pos ht0, hr]
      refine congrArg₂ _ ?_ (congrArg₂ _ rfl rfl)
      have harith : attempt + 1 + k = attempt + (k + 1) := by omega
      rw [harith]

/-- A run of transient HTTP attempts exhausting all the fuel surfaces a
`retriesExhausted` failure remembering the last transient cause, with one
report and one sleep per attempt. -/
theorem chatLoop_exhaust (outcomes : ℕ → AttemptOutcome) (jitter : ℕ → ℚ)
    (st : ℕ → ℕ) (bd : ℕ → String) :
    ∀ (n attempt : ℕ) (last : Option TransientCause),
      (∀ i, i < n → outcomes (attempt + i) = .httpError (st (attempt + i)) (bd (attempt + i))) →
      (∀ i, i < n → transientStatus (st (attempt + i))) →
      chatLoop outcomes jitter n attempt last =
        (.error (.retriesExhausted
           (if n = 0 then last
            else some (.http (st (attempt + n - 1)) (bd (attempt + n - 1))))),
         statusRun st attempt n, sleepRun jitter attempt n)
  | 0, attempt, last, _, _ => by simp [chatLoop, statusRun, sleepRun]
  | n + 1, attempt, last, hout, htr => by
    have h0 := hout 0 (Nat.succ_pos n)
    simp only [Nat.add_zero] at h0
    have ht0 : transientStatus (st attempt) := by
      have := htr 0 (Nat.succ_pos n)
      simpa using this
    have hr := chatLoop_exhaust outcomes jitter st bd n (attempt + 1)
      (some (.http (st attempt) (bd attempt)))
      (fun i hi => by
        have := hout (i + 1) (by omega)
        rwa [show attempt + (i + 1) = attempt + 1 + i by omega] at this)
      (fun i hi => by
        have := htr (i + 1) (by omega)
        rwa [show attempt + (i + 1) = attempt + 1 + i by omega] at this)
    simp only [chatLoop, h0, if_pos ht0, hr]
    refine congrArg₂ _ ?_ (congrArg₂ _ rfl rfl)
    cases n with
    | zero => simp
    | succ m =>
      simp only [Nat.succ_ne_zero, if_neg, if_false]
      have harith : attempt + 1 + (m + 1) - 1 = attempt + (m + 1 + 1) - 1 := by omega
      rw [harith]

/-- C4: in `chat_full` an HTTP status of 429, 529 or ≥ 500 is transient (the
status is reported to the pool and the layer sleeps
`base_delay·2^attempt + jitter`, jitter drawn from `[0, 0.8]`, before
retrying, for at most 4 total attempts); any other non-2xx status surfaces
immediately as a terminal `apiError` with status and body and no further
sleep; exhausting all 4 attempts surfaces `retriesExhausted` with the last
transient cause. -/
theorem chat_full_retry_spec (outcomes : ℕ → AttemptOutcome) (jitter : ℕ → ℚ)
    (st : ℕ → ℕ) (bd : ℕ → String)
    (hj : ∀ i, 0 ≤ jitter i ∧ jitter i ≤ 4/5) :
    (∀ k, k < MAX_RETRIES →
       (∀ i, i ≤ k → outcomes i = .httpError (st i) (bd i)) →
       (∀ i, i < k → transientStatus (st i)) →
       ¬ transientStatus (st k) →
       chat_full outcomes jitter =
         (.error (.apiError (st k) (bd k)),
          (List.range (k + 1)).map st,
          (List.range k).map (fun i => BASE_DELAY * 2 ^ i + jitter i))) ∧
    ((∀ i, i < MAX_RETRIES → outcomes i = .httpError (st i) (bd i)) →
     (∀ i, i < MAX_RETRIES → transientStatus (st i)) →
     chat_full outcomes jitter =
       (.error (.retriesExhausted (some (.http (st 3) (bd 3)))),
        (List.range MAX_RETRIES).map st,
        (List.range MAX_RETRIES).map (fun i => BASE_DELAY * 2 ^ i + jitter i))) ∧
    (∀ i, BASE_DELAY * 2 ^ i ≤ BASE_DELAY * 2 ^ i + jitter i ∧
       BASE_DELAY * 2 ^ i + jitter i ≤ BASE_DELAY * 2 ^ i + 4/5) := by
  have hst : ∀ n, (List.range n).map (fun i => st (0 + i)) = (List.range n).map st := by
    intro n
    apply List.map_congr_left
    intro i _
    rw [Nat.zero_add]
  have hsl : ∀ n, (List.range n).map (fun i => BASE_DELAY * 2 ^ (0 + i) + jitter (0 + i))
      = (List.range n).map (fun i => BASE_DELAY * 2 ^ i + jitter i) := by
    intro n
    apply List.map_congr_left
    intro i _
    rw [Nat.zero_add]
  refine ⟨?_, ?_, ?_⟩
  · intro k hk hout htr hfat
    have := chatLoop_fatal outcomes jitter st bd k MAX_RETRIES 0 none hk
      (fun i hi => by simpa using hout i hi)
      (fun i hi => by simpa using htr i hi)
      (by simpa using hfat)
    rw [chat_full, this, statusRun_eq, sleepRun_eq, hst, hsl]
    simp
  · intro hout htr
    have := chatLoop_exhaust outcomes jitter st bd MAX_RETRIES 0 none
      (fun i hi => by simpa using hout i hi)
      (fun i hi => by simpa using htr i hi)
    rw [chat_full, this, statusRun_eq, sleepRun_eq, hst, hsl]
    simp [MAX_RETRIES]
  · intro i
    have := hj i
    constructor <;> linarith [this.1, this.2]

/-- Witness for C4: a single fatal HTTP 400 is surfaced immediately with its
body, one report and no sleep. -/
theorem chat_full_retry_spec_witness :
    chat_full (fun _ => AttemptOutcome.httpError 400 "bad") (fun _ => 0) =
      (.error (.apiError 400 "bad"), [400], []) := by
  have h := (chat_full_retry_spec (fun _ => AttemptOutcome.httpError 400 "bad")
    (fun _ => 0) (fun _ => 400) (fun _ => "bad")
    (fun _ => ⟨le_refl 0, by norm_num⟩)).1 0 (by norm_num [MAX_RETRIES])
    (fun _ _ => rfl) (fun i hi => absurd hi (Nat.not_lt_zero i))
    (by decide)
  simpa using h

/-- The fold computing `maxGen` dominates its initial value. -/
theorem foldl_maxGen_init :
    ∀ (l : List PromptCandidate) (init : ℕ),
      init ≤ l.foldl (fun m x => max m x.generation) init
  | [], _ => le_refl _
  | x :: l, init =>
    le_trans (le_max_left init x.generation) (foldl_maxGen_init l (max init x.generation))

/-- The fold computing `maxGen` dominates every scanned generation. -/
theorem foldl_maxGen_mem :
    ∀ (l : List PromptCandidate) (init : ℕ), ∀ x ∈ l,
      x.generation ≤ l.foldl (fun m x => max m x.generation) init
  | y :: l, init, x, hx => by
    rcases List.mem_cons.mp hx with rfl | hx
    · exact le_trans (le_max_right init x.generation)
        (foldl_maxGen_init l (max init x.generation))
    · exact foldl_maxGen_mem l (max init y.generation) x hx

/-- `maxGen` bounds every generation in the pool. -/
theorem le_maxGen (c : PromptCandidate) (rest : List PromptCandidate) :
    ∀ x ∈ c :: rest, x.generation ≤ maxGen c rest := by
  intro x hx
  rcases List.mem_cons.mp hx with rfl | hx
  · exact foldl_maxGen_init rest x.generation
  · exact foldl_maxGen_mem rest c.generation x hx

/-- Every candidate generated by the `_evolve` append loop carries the target
generation and zero evaluations. -/
theorem newCandidates_mem (agentId : String) (t : ℕ) (now : ℚ) (g : ℕ) :
    ∀ (vs : List String) (i : ℕ), ∀ x ∈ newCandidates agentId t now g i vs,
      x.generation = g ∧ x.wins = 0 ∧ x.losses = 0
  | [], _, x, hx => absurd hx (List.not_mem_nil x)
  | v :: vs, i, x, hx => by
    rcases List.mem_cons.mp hx with rfl | hx
    · exact ⟨rfl, rfl, rfl⟩
    · exact newCandidates_mem agentId t now g vs (i + 1) x hx

/-- One generated candidate per accepted variant text. -/
theorem newCandidates_length (agentId : String) (t : ℕ) (now : ℚ) (g : ℕ) :
    ∀ (vs : List String) (i : ℕ), (newCandidates agentId t now g i vs).length = vs.length
  | [], _ => rfl
  | _ :: vs, i => by
    simp only [newCandidates, List.length_cons, newCandidates_length agentId t now g vs (i + 1)]

/-- C7 (amended): parsed variant blocks are accepted exactly when their
stripped text is strictly longer than 80 characters (at most the requested
count); each accepted variant becomes a new candidate at
`generation = current max + 1` with zero evaluations appended to the pool,
so the generation of every new candidate dominates every existing one. -/
theorem evolve_variants_spec (resp : String) (n : ℕ) (c : PromptCandidate)
    (rest : List PromptCandidate) (agentId : String) (t : ℕ) (now : ℚ)
    (vtexts : List String) :
    (parse_variants resp n).length ≤ n ∧
    (∀ v ∈ parse_variants resp n, 80 < v.length) ∧
    (∃ news, evolve_pool (c :: rest) agentId t now vtexts = (c :: rest) ++ news ∧
       news.length = vtexts.length ∧
       (∀ x ∈ news, x.generation = maxGen c rest + 1 ∧ x.wins = 0 ∧ x.losses = 0) ∧
       ∀ old ∈ c :: rest, ∀ x ∈ news, old.generation < x.generation) ∧
    evolve_pool [] agentId t now vtexts = [] := by
  refine ⟨?_, ?_, ?_, rfl⟩
  · calc (parse_variants resp n).length
        = ((((findVariants resp.toList.length resp.toList).map pyStrip).filter
            (fun p => 80 < p.length)).take n).length := by
          simp [parse_variants]
      _ ≤ n := List.length_take_le n _
  · intro v hv
    simp only [parse_variants, List.mem_map] at hv
    rcases hv with ⟨p, hp, rfl⟩
    have hp2 := List.mem_of_mem_take hp
    have hlen : 80 < p.length := by
      have := List.of_mem_filter hp2
      simpa using this
    simpa using hlen
  · refine ⟨newCandidates agentId t now (maxGen c rest + 1) 0 vtexts, rfl,
      newCandidates_length agentId t now (maxGen c rest + 1) vtexts 0, ?_, ?_⟩
    · exact fun x hx => newCandidates_mem agentId t now (maxGen c rest + 1) vtexts 0 x hx
    · intro old hold x hx
      have hg := (newCandidates_mem agentId t now (maxGen c rest + 1) vtexts 0 x hx).1
      have := le_maxGen c rest old hold
      omega

/-- Counterexample for C7 as stated: a parsed variant block whose stripped
text has length exactly 80 (so not "below 80 characters") is nevertheless
discarded, because acceptance requires length strictly greater than 80. -/
theorem parse_variants_len80_cex :
    (findVariants
        (("<VARIANT>" ++ String.mk (List.replicate 80 'a') ++ "</VARIANT>").toList.length)
        ("<VARIANT>" ++ String.mk (List.replicate 80 'a') ++ "</VARIANT>").toList).map pyStrip
      = [List.replicate 80 'a'] ∧
    (List.replicate 80 'a').length = 80 ∧
    ¬ (List.replicate 80 'a').length < 80 ∧
    parse_variants ("<VARIANT>" ++ String.mk (List.replicate 80 'a') ++ "</VARIANT>") 3
      = [] := by
  refine ⟨by decide, by decide, by decide, by decide⟩

/-- `getD` with default `0` over a nonnegative list is nonnegative. -/
theorem getD_nonneg : ∀ (l : List ℚ) (j : ℕ), (∀ x ∈ l, 0 ≤ x) → 0 ≤ l.getD j 0
  | [], j, _ => by simp
  | x :: l, 0, h => by simpa using h x (List.mem_cons_self x l)
  | x :: l, j + 1, h => by
    simpa using getD_nonneg l j (fun y hy => h y (List.mem_cons_of_mem x hy))

/-- Membership after a `set`: either the written value or an original one. -/
theorem mem_set_cases : ∀ (l : List ℚ) (i : ℕ) (a x : ℚ), x ∈ l.set i a → x = a ∨ x ∈ l
  | [], _, _, x, h => by simp at h
  | y :: l, 0, a, x, h => by
    simp only [List.set_cons_zero] at h
    rcases List.mem_cons.mp h with rfl | h
    · exact Or.inl rfl
    · exact Or.inr (List.mem_cons_of_mem y h)
  | y :: l, i + 1, a, x, h => by
    simp only [List.set_cons_succ] at h
    rcases List.mem_cons.mp h with rfl | h
    · exact Or.inr (List.mem_cons_self x l)
    · rcases mem_set_cases l i a x h with h' | h'
      · exact Or.inl h'
      · exact Or.inr (List.mem_cons_of_mem y h')

/-- Adding `w` into slot `j` adds `w` to the list sum. -/
theorem sum_set_add : ∀ (l : List ℚ) (j : ℕ) (w : ℚ), j < l.length →
    (l.set j (l.getD j 0 + w)).sum = l.sum + w
  | [], j, w, h => absurd h (by simp)
  | x :: l, 0, w, _ => by
    simp only [List.getD_cons_zero, List.set_cons_zero, List.sum_cons]
    ring
  | x :: l, j + 1, w, h => by
    simp only [List.getD_cons_succ, List.set_cons_succ, List.sum_cons]
    rw [sum_set_add l j w (by simpa using h)]
    ring

/-- The accumulation loop never changes the vector length. -/
theorem embedLoop_length : ∀ (ws : List (List Char)) (i : ℕ) (vec : List ℚ),
    (embedLoop ws i vec).length = vec.length
  | [], _, _ => rfl
  | w :: ws, i, vec => by
    simp only [embedLoop, embedLoop_length ws (i + 1), List.length_set]

/-- The accumulation loop keeps all entries nonnegative. -/
theorem embedLoop_nonneg : ∀ (ws : List (List Char)) (i : ℕ) (vec : List ℚ),
    (∀ x ∈ vec, 0 ≤ x) → ∀ x ∈ embedLoop ws i vec, 0 ≤ x
  | [], _, _, h => h
  | w :: ws, i, vec, h => by
    apply embedLoop_nonneg ws (i + 1)
    intro x hx
    rcases mem_set_cases _ _ _ x hx with heq | hx
    · rw [heq]
      have h1 : (0 : ℚ) ≤ vec.getD (deterministic_hash w % 64) 0 := getD_nonneg vec _ h
      have h2 : (0 : ℚ) < 1 / ((i : ℚ) + 1) := by positivity
      linarith
    · exact h x hx

/-- Each processed token adds exactly its weight `1/(i+1)` to the sum of the
64-slot vector. -/
theorem embedLoop_sum : ∀ (ws : List (List Char)) (i : ℕ) (vec : List ℚ),
    vec.length = 64 →
    (embedLoop ws i vec).sum
      = vec.sum + ((List.range ws.length).map (fun j => (1 : ℚ) / ((i + j + 1 : ℕ) : ℚ))).sum
  | [], i, vec, _ => by simp [embedLoop]
  | w :: ws, i, vec, hlen => by
    have hidx : deterministic_hash w % 64 < vec.length := by
      rw [hlen]
      exact Nat.mod_lt _ (by norm_num)
    simp only [embedLoop]
    rw [embedLoop_sum ws (i + 1) _ (by simp [List.length_set, hlen]),
      sum_set_add vec _ _ hidx]
    simp only [List.length_cons, List.range_succ_eq_map, List.map_cons, List.map_map,
      List.sum_cons]
    have hmap : (List.range ws.length).map
          ((fun j => (1 : ℚ) / ((i + j + 1 : ℕ) : ℚ)) ∘ Nat.succ)
        = (List.range ws.length).map (fun j => (1 : ℚ) / ((i + 1 + j + 1 : ℕ) : ℚ)) := by
      apply List.map_congr_left
      intro j _
      simp only [Function.comp_apply]
      congr 2
      omega
    rw [hmap]
    push_cast
    ring

/-- The raw embedding vector has 64 slots. -/
theorem embedRaw_length (words : List (List Char)) : (embedRaw words).length = 64 := by
  rw [embedRaw, embedLoop_length]
  simp

/-- The raw embedding vector is entrywise nonnegative. -/
theorem embedRaw_nonneg (words : List (List Char)) : ∀ x ∈ embedRaw words, 0 ≤ x := by
  apply embedLoop_nonneg
  intro x hx
  rw [List.eq_of_mem_replicate hx]

/-- With at least one token the raw vector has positive sum. -/
theorem embedRaw_sum_pos (words : List (List Char)) (h : words ≠ []) :
    0 < (embedRaw words).sum := by
  rw [embedRaw, embedLoop_sum _ _ _ (by simp)]
  have hrep : (List.replicate 64 (0 : ℚ)).sum = 0 := by simp
  rw [hrep, zero_add]
  have hw : 0 < words.length := List.length_pos.mpr h
  apply List.sum_pos
  · intro x hx
    rcases List.mem_map.mp hx with ⟨j, _, rfl⟩
    positivity
  · simp only [ne_eq, List.map_eq_nil_iff, List.range_eq_nil, List.length_take]
    omega

/-- An entrywise nonpositive list has nonpositive sum. -/
theorem sum_nonpos_of : ∀ l : List ℚ, (∀ x ∈ l, x ≤ 0) → l.sum ≤ 0
  | [], _ => by simp
  | x :: l, h => by
    simp only [List.sum_cons]
    have h1 := sum_nonpos_of l (fun y hy => h y (List.mem_cons_of_mem x hy))
    have h2 := h x (List.mem_cons_self x l)
    linarith

/-- A list with nonnegative entries and positive sum has a positive entry. -/
theorem exists_pos_entry : ∀ l : List ℚ, 0 < l.sum → ∃ x ∈ l, 0 < x := by
  intro l hl
  by_contra hnone
  push_neg at hnone
  have : l.sum ≤ 0 := sum_nonpos_of l hnone
  linarith

/-- A nonnegative list with positive sum has positive sum of squares. -/
theorem sum_sq_pos (l : List ℚ) (hsum : 0 < l.sum) :
    0 < (l.map (fun x => x * x)).sum := by
  rcases exists_pos_entry l hsum with ⟨x₀, hmem, hpos⟩
  have hx₀ : x₀ * x₀ ∈ l.map (fun x => x * x) := List.mem_map.mpr ⟨x₀, hmem, rfl⟩
  have hle : x₀ * x₀ ≤ (l.map (fun x => x * x)).sum := by
    apply List.single_le_sum _ _ hx₀
    intro y hy
    rcases List.mem_map.mp hy with ⟨z, _, rfl⟩
    exact mul_self_nonneg z
  exact lt_of_lt_of_le (mul_pos hpos hpos) hle

/-- Pull a common real divisor out of a sum of squares over rational data. -/
theorem sum_map_sq_div : ∀ (l : List ℚ) (d : ℝ),
    (List.map (fun x : ℚ => (x : ℝ) ^ 2 / d) l).sum
      = (List.map (fun x : ℚ => (x : ℝ) ^ 2) l).sum / d
  | [], d => by simp
  | x :: l, d => by
    simp only [List.map_cons, List.sum_cons, sum_map_sq_div l d]
    rw [add_div]

/-- The real sum of squares is the cast of the rational sum of squares. -/
theorem sum_map_sq_cast : ∀ l : List ℚ,
    (List.map (fun x : ℚ => (x : ℝ) ^ 2) l).sum = (((l.map (fun x => x * x)).sum : ℚ) : ℝ)
  | [] => by simp
  | x :: l => by
    simp only [List.map_cons, List.sum_cons, sum_map_sq_cast l]
    push_cast
    ring

/-- C8: `embed_text` always returns exactly 64 components; with at least one
whitespace-separated token the result has L2 norm 1; with no token it
returns the all-zero vector, whose norm is 0 (not unit); and the function is
deterministic. -/
theorem embed_text_spec (text : String) :
    (embed_text text).length = 64 ∧
    (pySplit (pyLower text.toList) ≠ [] →
       ((embed_text text).map (fun y => y ^ 2)).sum = 1 ∧
       Real.sqrt ((embed_text text).map (fun y => y ^ 2)).sum = 1) ∧
    (pySplit (pyLower text.toList) = [] →
       embed_text text = List.replicate 64 (0 : ℝ) ∧
       Real.sqrt ((embed_text text).map (fun y => y ^ 2)).sum = 0 ∧
       Real.sqrt ((embed_text text).map (fun y => y ^ 2)).sum ≠ 1) ∧
    ∀ s : String, s = text → embed_text s = embed_text text := by
  refine ⟨?_, ?_, ?_, fun s hs => by rw [hs]⟩
  · rw [embed_text]
    split <;> simp [embedRaw_length]
  · intro hne
    set vec := embedRaw (pySplit (pyLower text.toList)) with hvec
    have hS : 0 < (vec.map (fun x => x * x)).sum :=
      sum_sq_pos vec (embedRaw_sum_pos _ hne)
    set S : ℚ := (vec.map (fun x => x * x)).sum with hSdef
    have hemb : embed_text text
        = List.map (fun x : ℚ => (x : ℝ) / Real.sqrt (S : ℝ)) vec := by
      rw [embed_text]
      simp only [← hvec, ← hSdef, if_pos hS]
    have hSR : (0 : ℝ) < (S : ℝ) := by exact_mod_cast hS
    have hsq : Real.sqrt (S : ℝ) ^ 2 = (S : ℝ) := Real.sq_sqrt hSR.le
    have hsum : ((embed_text text).map (fun y => y ^ 2)).sum = 1 := by
      rw [hemb, List.map_map]
      have hcomp : ((fun y : ℝ => y ^ 2) ∘ fun x : ℚ => (x : ℝ) / Real.sqrt (S : ℝ))
          = fun x : ℚ => (x : ℝ) ^ 2 / Real.sqrt (S : ℝ) ^ 2 := by
        funext x
        simp [Function.comp_apply, div_pow]
      rw [hcomp, hsq, sum_map_sq_div, sum_map_sq_cast, ← hSdef]
      exact div_self (ne_of_gt hSR)
    exact ⟨hsum, by rw [hsum, Real.sqrt_one]⟩
  · intro hnil
    have hvec : embedRaw (pySplit (pyLower text.toList)) = List.replicate 64 0 := by
      rw [hnil]
      rfl
    have hS : ((List.replicate 64 (0 : ℚ)).map (fun x => x * x)).sum = 0 := by simp
    have hemb : embed_text text = List.replicate 64 (0 : ℝ) := by
      rw [embed_text]
      simp only [hvec, hS]
      rw [if_neg (lt_irrefl 0)]
      simp [List.map_replicate]
    have hzero : ((embed_text text).map (fun y => y ^ 2)).sum = 0 := by
      rw [hemb]
      simp [List.map_replicate]
    refine ⟨hemb, ?_, ?_⟩
    · rw [hzero, Real.sqrt_zero]
    · rw [hzero, Real.sqrt_zero]
      norm_num

/-- Witness for C8: a two-token input embeds to a unit vector, the empty
input embeds to the zero vector. -/
theorem embed_text_spec_witness :
    ((embed_text "hi there").map (fun y => y ^ 2)).sum = 1 ∧
    embed_text "" = List.replicate 64 (0 : ℝ) ∧
    embed_text "" = embed_text "" :=
  ⟨((embed_text_spec "hi there").2.1 (by decide)).1,
   ((embed_text_spec "").2.2.1 (by decide)).1,
   (embed_text_spec "").2.2.2 "" rfl⟩

end RPG
